import Mathlib

/-!
Shallow embedding of the crossword CSP solver in `generate.py`
(class `CrosswordCreator`): domain seeding, node consistency,
AC-3 arc consistency, the consistency check, the selection and
ordering heuristics, and the backtracking search.

Words are lists of characters; Python dictionaries (`self.domains`,
the `assignment`) are association lists in key-insertion order, so
every definition is executable and evaluates on concrete inputs.
Loops whose termination is not structural (`ac3`, `backtrack`)
take an explicit fuel argument; running out of fuel is a distinct
outcome that never counts as a result of the Python code.
-/

namespace CrosswordGen

abbrev Word := List Char

inductive Direction where
  | across
  | down
deriving DecidableEq, Repr

/-- A slot of the grid, as in crossword.py's `Variable`:
row, column, direction and length. -/
structure Variable where
  row : Nat
  col : Nat
  direction : Direction
  length : Nat
deriving DecidableEq, Repr

/-- Modelled from the spec: the `Crossword` class lives in crossword.py,
which is imported by generate.py but is not among the sources.  Per the
spec it exposes the slot set (`variables`), the word pool (`words`), a
neighbor relation ("two slots are neighbors iff their occupied cells
intersect in the grid at exactly one cell" — hence symmetric, irreflexive
and closed over the slot set), and an overlap-index lookup for any pair,
`some (i, j)` exactly for crossing pairs. -/
structure Crossword where
  vars : List Variable
  words : List Word
  neighborsOf : Variable → List Variable
  overlaps : Variable → Variable → Option (Nat × Nat)
  neighbors_mem : ∀ v, v ∈ vars → ∀ u, u ∈ neighborsOf v → u ∈ vars
  neighbors_symm : ∀ v, v ∈ vars → ∀ u, u ∈ vars →
    u ∈ neighborsOf v → v ∈ neighborsOf u
  neighbors_irrefl : ∀ v, v ∈ vars → v ∉ neighborsOf v

/-- A (possibly incomplete) assignment: the Python dict mapping variables
to words, in insertion order. -/
abbrev Assignment := List (Variable × Word)

/-- The domain store `self.domains`: the Python dict mapping each variable
to its list of remaining candidate words. -/
abbrev Domains := List (Variable × List Word)

/-- First-match lookup in an assignment (Python dict access). -/
def lookupA : Assignment → Variable → Option Word
  | [], _ => none
  | p :: rest, v => if p.1 = v then some p.2 else lookupA rest v

/-- Python dict write `assignment[var] = value`: replace in place if the
key is present, append otherwise. -/
def insertA : Assignment → Variable → Word → Assignment
  | [], var, w => [(var, w)]
  | p :: rest, var, w =>
      if p.1 = var then (var, w) :: rest else p :: insertA rest var w

/-- Python `assignment.pop(var)`: drop the entry keyed by `var`. -/
def popA (a : Assignment) (var : Variable) : Assignment :=
  a.filter (fun p => !(p.1 == var))

/-- First-match lookup in the domain store. -/
def lookupD : Domains → Variable → Option (List Word)
  | [], _ => none
  | p :: rest, v => if p.1 = v then some p.2 else lookupD rest v

/-- `self.domains[x]` — every read in generate.py is at an existing key,
so the default for a missing key is never observable in context. -/
def domOf (d : Domains) (v : Variable) : List Word :=
  (lookupD d v).getD []

/-- Python dict write `self.domains[x] = xval`. -/
def updateD : Domains → Variable → List Word → Domains
  | [], x, ws => [(x, ws)]
  | p :: rest, x, ws =>
      if p.1 = x then (x, ws) :: rest else p :: updateD rest x ws

/-- Python string indexing `w[i]`.  generate.py only indexes at overlap
positions, which are in range for any well-formed grid (the spec's
MalformedGraph precondition), so the default is never observable. -/
def charAt (w : Word) (i : Nat) : Char :=
  w.getD i ' '

/-- `CrosswordCreator.__init__`: each variable's domain is seeded with a
copy of the full word pool. -/
def initialDomains (cw : Crossword) : Domains :=
  cw.vars.map (fun v => (v, cw.words))

/-- generate.py lines 97-109, `enforce_node_consistency`: for every
variable, discard the candidates whose length differs from the
variable's length. -/
def enforce_node_consistency (d : Domains) : Domains :=
  d.map (fun p => (p.1, p.2.filter (fun w => w.length == p.1.length)))

/-- generate.py lines 112-133, `revise(x, y)`: with overlap indices
`(i, j)` for the pair, keep in `domains[x]` exactly the words having at
least one compatible word in `domains[y]`; also report whether anything
was removed.  A `none` overlap is unreachable in generate.py (`revise`
is only ever called on neighbor pairs; Python would raise unpacking
`None`), and is modelled as a no-op. -/
def revise (cw : Crossword) (d : Domains) (x y : Variable) : Domains × Bool :=
  match cw.overlaps x y with
  | none => (d, false)
  | some (i, j) =>
      let dy := domOf d y
      let keep := (domOf d x).filter
        (fun xv => dy.any (fun yv => charAt xv i == charAt yv j))
      let revised := (domOf d x).any
        (fun xv => !(dy.any (fun yv => charAt xv i == charAt yv j)))
      (updateD d x keep, revised)

/-- generate.py lines 153-155: the arcs put back on the queue after
`revise(x, y)` pruned something — one arc `(z, x)` for every neighbor
`z` of `x` (the dequeued `y` is not excluded). -/
def ac3Enqueue (cw : Crossword) (x y : Variable) : List (Variable × Variable) :=
  (cw.neighborsOf x).map (fun z => (z, x))

/-- generate.py lines 145-149: the initial queue when `ac3` is called
with `arcs=None` — `(value, pair)` for every key `value` of the domain
store and every neighbor `pair` of it. -/
def initialArcs (cw : Crossword) (d : Domains) : List (Variable × Variable) :=
  d.flatMap (fun p => (cw.neighborsOf p.1).map (fun u => (p.1, u)))

/-- generate.py lines 150-155, the `while not arcs.empty()` loop of `ac3`:
FIFO queue, dequeue `(x, y)`, revise, and on revision enqueue
`ac3Enqueue`.  `none` means the fuel ran out (the Python loop always
terminates, since revision strictly shrinks a domain). -/
def ac3Loop (cw : Crossword) : Nat → Domains → List (Variable × Variable) → Option Domains
  | 0, _, _ => none
  | _ + 1, d, [] => some d
  | fuel + 1, d, (x, y) :: rest =>
      let r := revise cw d x y
      if r.2 then ac3Loop cw fuel r.1 (rest ++ ac3Enqueue cw x y)
      else ac3Loop cw fuel r.1 rest

/-- generate.py lines 136-159, `ac3(arcs)`: run the queue to exhaustion,
then return `False` iff some domain ended up empty. -/
def ac3 (cw : Crossword) (fuel : Nat) (d : Domains)
    (arcs : Option (List (Variable × Variable))) : Option (Domains × Bool) :=
  let q := match arcs with
    | none => initialArcs cw d
    | some q0 => q0
  match ac3Loop cw fuel d q with
  | none => none
  | some d' => some (d', d'.all (fun p => !(p.2.isEmpty)))

/-- generate.py lines 161-171, `assignment_complete`: every key of the
domain store has a value in the assignment. -/
def assignment_complete (d : Domains) (a : Assignment) : Bool :=
  d.all (fun p => (lookupA a p.1).isSome)

/-- The body of the `for word in assignment` loop of `consistent`
(generate.py lines 179-192), with `done` the values seen so far:
check the length, that the value was not already used, and agreement
at the overlap indices with every neighbor that is not an unassigned
domain key.  The two `match` defaults are unreachable in generate.py
when every neighbor of an assigned variable is a domain key and
neighboring pairs have an overlap (Python would raise otherwise). -/
def consistentAux (cw : Crossword) (d : Domains) (a : Assignment) :
    List Word → List (Variable × Word) → Bool
  | _, [] => true
  | done, (v, w) :: rest =>
      if !(v.length == w.length) then false
      else if done.contains w then false
      else
        let temp := (d.map Prod.fst).filter (fun x => (lookupA a x).isNone)
        let layers := (cw.neighborsOf v).filter (fun x => !(temp.contains x))
        if layers.all (fun layer =>
            match cw.overlaps v layer, lookupA a layer with
            | some (i, j), some wl => charAt w i == charAt wl j
            | _, _ => true) then
          consistentAux cw d a (w :: done) rest
        else false

/-- generate.py lines 173-193, `consistent(assignment)`: all assigned
words fit their slots, no word is used twice, and all assigned
neighboring pairs agree at their overlap indices. -/
def consistent (cw : Crossword) (d : Domains) (a : Assignment) : Bool :=
  consistentAux cw d a [] a

/-- generate.py lines 206-213, the method `sort` — the key used by the
least-constraining-value ordering: how many words in the neighbors'
domains conflict with `word` at the overlap indices.  (`none` overlap
unreachable in generate.py, modelled as contributing 0.) -/
def sort (cw : Crossword) (d : Domains) (word : Word) (var : Variable) : Nat :=
  ((cw.neighborsOf var).map (fun mtc =>
      match cw.overlaps var mtc with
      | some (i, j) =>
          ((domOf d mtc).filter (fun val => !(charAt word i == charAt val j))).length
      | none => 0)).sum

/-- Stable insertion of `w` into a key-sorted list: `w` goes after every
element whose key is strictly smaller and before the rest. -/
def insertByKey (key : Word → Nat) (w : Word) : List Word → List Word
  | [] => [w]
  | v :: rest =>
      if key w ≤ key v then w :: v :: rest else v :: insertByKey key w rest

/-- Stable ascending sort by key — the unique stable sort, hence the
same permutation Python's stable `list.sort(key=...)` produces. -/
def sortStable (key : Word → Nat) : List Word → List Word
  | [] => []
  | w :: rest => insertByKey key w (sortStable key rest)

/-- generate.py lines 195-204, `order_domain_values`: the domain of
`var` sorted ascending by the `sort` count (the assignment argument is
taken but unused, as in the Python method). -/
def order_domain_values (cw : Crossword) (d : Domains) (var : Variable)
    (_a : Assignment) : List Word :=
  sortStable (fun w => sort cw d w var) (domOf d var)

/-- Python's strict-superset test `A > B` on sets, applied by
`select_unassigned_variable` to neighbor sets. -/
def setStrictSuperset (A B : List Variable) : Bool :=
  B.all (fun u => A.contains u) && A.any (fun u => !(B.contains u))

/-- The `for option in options[1:]` loop of `select_unassigned_variable`
(generate.py lines 228-236), carrying the current `min` and `minval`. -/
def suvGo (cw : Crossword) (d : Domains) :
    Variable → Nat → List Variable → Variable
  | mn, _, [] => mn
  | mn, mnval, option :: rest =>
      let comp := (domOf d option).length
      if comp == mnval then
        if setStrictSuperset (cw.neighborsOf option) (cw.neighborsOf mn) then
          suvGo cw d option comp rest
        else suvGo cw d mn mnval rest
      else if comp < mnval then suvGo cw d option comp rest
      else suvGo cw d mn mnval rest

/-- generate.py lines 215-237, `select_unassigned_variable`: scan the
unassigned domain keys keeping the one of smallest domain, a tie going
to `option` only when its neighbor set is a strict superset of the
current minimum's (the Python `>` on sets). -/
def select_unassigned_variable (cw : Crossword) (d : Domains)
    (a : Assignment) : Option Variable :=
  match (d.map Prod.fst).filter (fun x => (lookupA a x).isNone) with
  | [] => none
  | first :: rest => some (suvGo cw d first ((domOf d first).length) rest)

/-- Outcome of a `backtrack` call: a complete assignment was returned
(`found`, the returned dict being the final state itself), Python `None`
was returned (`failure`), an uncaught `TypeError` was raised by
`self.consistent(None)` iterating over `None` (`typeError`), or the
model's fuel ran out (`outOfFuel`, never a behavior of the code). -/
inductive BTOutcome where
  | found
  | failure
  | typeError
  | outOfFuel
deriving DecidableEq, Repr

/-- The `for value in order_domain_values` loop of `backtrack`
(generate.py lines 251-258), threading the mutable assignment dict:
set `assignment[var] = value`; if consistent, recurse via `rec`; a
`found` recursive result is re-checked with `consistent` and returned;
a `failure` (`None`) recursive result makes the caller evaluate
`self.consistent(None)`, which raises `TypeError`; raised exceptions
propagate; an inconsistent tentative value is popped and the next value
tried; an exhausted loop returns `failure` (`None`). -/
def btAttempt (cw : Crossword) (d : Domains)
    (rec : Assignment → BTOutcome × Assignment) (var : Variable) :
    Assignment → List Word → BTOutcome × Assignment
  | a, [] => (.failure, a)
  | a, value :: rest =>
      let a2 := insertA a var value
      if consistent cw d a2 then
        match rec a2 with
        | (.found, a3) =>
            if consistent cw d a3 then (.found, a3)
            else btAttempt cw d rec var (popA a3 var) rest
        | (.failure, a3) => (.typeError, a3)
        | (.typeError, a3) => (.typeError, a3)
        | (.outOfFuel, a3) => (.outOfFuel, a3)
      else btAttempt cw d rec var (popA a2 var) rest

/-- generate.py lines 239-258, `backtrack(assignment)`: return the
assignment once complete, otherwise pick an unassigned variable and try
its ordered values.  A `none` selection is unreachable for an incomplete
assignment (Python would raise `KeyError` ordering `None`'s domain). -/
def backtrack (cw : Crossword) (d : Domains) :
    Nat → Assignment → BTOutcome × Assignment
  | 0 => fun a => (.outOfFuel, a)
  | fuel + 1 => fun a =>
      if assignment_complete d a then (.found, a)
      else
        match select_unassigned_variable cw d a with
        | none => (.typeError, a)
        | some var =>
            btAttempt cw d (backtrack cw d fuel) var a
              (order_domain_values cw d var a)

/-- The domain store as it stands when `solve` reaches `backtrack`:
seeded, node-consistent, then run through `ac3()` (whose boolean result
`solve` discards). -/
def solveDomains (cw : Crossword) (acFuel : Nat) : Option Domains :=
  match ac3 cw acFuel (enforce_node_consistency (initialDomains cw)) none with
  | none => none
  | some (d2, _) => some d2

/-- generate.py lines 89-95, `solve`: node consistency, `ac3()` (result
ignored), then `backtrack(dict())`. -/
def solve (cw : Crossword) (acFuel btFuel : Nat) : BTOutcome × Assignment :=
  match solveDomains cw acFuel with
  | none => (.outOfFuel, [])
  | some d2 => backtrack cw d2 btFuel []

/-- Arc consistency of `x` with respect to `y` under the domain store
`d`: every remaining candidate of `x` has a partner in `y`'s domain
agreeing at the overlap indices. -/
def arcOK (cw : Crossword) (d : Domains) (x y : Variable) : Prop :=
  ∀ i j, cw.overlaps x y = some (i, j) →
    ∀ w ∈ domOf d x, ∃ v ∈ domOf d y, charAt w i = charAt v j

/-- The neighbor obligations of one assigned entry `(v, w)`: every
assigned neighbor's word agrees with `w` at the overlap indices. -/
def entryOK (cw : Crossword) (a : Assignment) (v : Variable) (w : Word) : Prop :=
  ∀ u ∈ cw.neighborsOf v, ∀ wu, lookupA a u = some wu →
    ∀ i j, cw.overlaps v u = some (i, j) → charAt w i = charAt wu j

/-! ## Concrete instances used by the claim witnesses and counterexamples -/

def aaa : Word := ['a', 'a', 'a']
def bbb : Word := ['b', 'b', 'b']
def ccc : Word := ['c', 'c', 'c']
def aab : Word := ['a', 'a', 'b']

/-- Slot of length 3 across at (0,0). -/
def vA2 : Variable := ⟨0, 0, Direction.across, 3⟩

/-- Slot of length 3 down at (0,0); crosses `vA2` at (0,0). -/
def vB2 : Variable := ⟨0, 0, Direction.down, 3⟩

/-- Two slots of length 3 crossing at index 0 of each, word pool
aaa/bbb/ccc: any two distinct pool words differ at index 0, so the
instance is unsatisfiable, yet every domain survives `ac3` (each word
matches itself across the crossing). -/
def cw2 : Crossword where
  vars := [vA2, vB2]
  words := [aaa, bbb, ccc]
  neighborsOf := fun v =>
    if v = vA2 then [vB2] else if v = vB2 then [vA2] else []
  overlaps := fun x y =>
    if x = vA2 ∧ y = vB2 then some (0, 0)
    else if x = vB2 ∧ y = vA2 then some (0, 0)
    else none
  neighbors_mem := by decide
  neighbors_symm := by decide
  neighbors_irrefl := by decide

/-- The seeded, node-consistent domains of `cw2`. -/
def d2 : Domains := enforce_node_consistency (initialDomains cw2)

/-- Domains for `cw2` in which `revise vA2 vB2` really prunes
(`bbb` has no partner starting with 'a' in [aab]). -/
def dC5 : Domains := [(vA2, [aaa, bbb]), (vB2, [aab])]

def ab : Word := ['a', 'b']
def ba : Word := ['b', 'a']
def bb : Word := ['b', 'b']
def aa : Word := ['a', 'a']

/-- Slot of length 2 across at (0,0). -/
def vA1 : Variable := ⟨0, 0, Direction.across, 2⟩

/-- Slot of length 2 down at (0,0); crosses `vA1` at (0,0) and `vC1`
at its index 1. -/
def vB1 : Variable := ⟨0, 0, Direction.down, 2⟩

/-- Slot of length 2 across at (1,0); crosses `vB1` at (0 of `vC1`,
1 of `vB1`). -/
def vC1 : Variable := ⟨1, 0, Direction.across, 2⟩

/-- A 2x2 grid: across slot `vA1` and across slot `vC1` both crossing
the down slot `vB1`.  Satisfiable (vA1=bb, vB1=ba, vC1=ab), but the
solver's first descent (vA1=ab, vC1=ba) leaves `vB1` without any
consistent candidate. -/
def cw1 : Crossword where
  vars := [vA1, vC1, vB1]
  words := [ab, ba, bb, aa]
  neighborsOf := fun v =>
    if v = vA1 then [vB1]
    else if v = vC1 then [vB1]
    else if v = vB1 then [vA1, vC1]
    else []
  overlaps := fun x y =>
    if x = vA1 ∧ y = vB1 then some (0, 0)
    else if x = vB1 ∧ y = vA1 then some (0, 0)
    else if x = vC1 ∧ y = vB1 then some (0, 1)
    else if x = vB1 ∧ y = vC1 then some (1, 0)
    else none
  neighbors_mem := by decide
  neighbors_symm := by decide
  neighbors_irrefl := by decide

/-- The complete satisfying assignment for `cw1` that the solver never
finds. -/
def sol1 : Assignment := [(vA1, bb), (vC1, ab), (vB1, ba)]

def cd : Word := ['c', 'd']

def x6 : Variable := ⟨0, 0, Direction.across, 2⟩
def n1 : Variable := ⟨0, 0, Direction.down, 2⟩
def y6 : Variable := ⟨5, 0, Direction.across, 2⟩
def n2 : Variable := ⟨5, 0, Direction.down, 2⟩
def n3 : Variable := ⟨5, 1, Direction.down, 2⟩

/-- Five slots: `x6` crosses only `n1`; `y6` crosses `n2` and `n3`.
With `n1`, `n2`, `n3` assigned, the unassigned `x6` and `y6` tie on
domain size while `y6` has strictly more neighbors. -/
def cw6 : Crossword where
  vars := [x6, y6, n1, n2, n3]
  words := [ab, cd]
  neighborsOf := fun v =>
    if v = x6 then [n1]
    else if v = y6 then [n2, n3]
    else if v = n1 then [x6]
    else if v = n2 then [y6]
    else if v = n3 then [y6]
    else []
  overlaps := fun x y =>
    if x = x6 ∧ y = n1 then some (0, 0)
    else if x = n1 ∧ y = x6 then some (0, 0)
    else if x = y6 ∧ y = n2 then some (0, 0)
    else if x = n2 ∧ y = y6 then some (0, 0)
    else if x = y6 ∧ y = n3 then some (1, 0)
    else if x = n3 ∧ y = y6 then some (0, 1)
    else none
  neighbors_mem := by decide
  neighbors_symm := by decide
  neighbors_irrefl := by decide

def d6 : Domains := initialDomains cw6

/-- `n1`, `n2`, `n3` assigned; `x6` and `y6` still open. -/
def a6 : Assignment := [(n1, ab), (n2, ab), (n3, cd)]

def word4 : Word := ['w', 'o', 'r', 'd']

def vS : Variable := ⟨0, 0, Direction.across, 4⟩

/-- An isolated slot of length 4 and a pool with exactly one 4-letter
word (the spec's no-neighbors scenario): `solve` succeeds. -/
def cwS : Crossword where
  vars := [vS]
  words := [word4]
  neighborsOf := fun _ => []
  overlaps := fun _ _ => none
  neighbors_mem := by decide
  neighbors_symm := by decide
  neighbors_irrefl := by decide

/-! ## Association-list and revise lemmas -/

theorem lookupA_none_iff (a : Assignment) (v : Variable) :
    lookupA a v = none ↔ ∀ p ∈ a, p.1 ≠ v := by
  induction a with
  | nil => simp [lookupA]
  | cons p rest ih =>
      by_cases h : p.1 = v
      · simp [lookupA, h]
      · simp [lookupA, h, ih]

theorem lookupA_mem {a : Assignment} {v : Variable} {w : Word}
    (h : lookupA a v = some w) : (v, w) ∈ a := by
  induction a with
  | nil => simp [lookupA] at h
  | cons p rest ih =>
      by_cases hp : p.1 = v
      · simp only [lookupA, if_pos hp] at h
        injection h with h
        have hpv : (v, w) = p := by
          obtain ⟨p1, p2⟩ := p
          simp only at hp h
          rw [hp, h]
        exact List.mem_cons.mpr (Or.inl hpv)
      · simp only [lookupA, if_neg hp] at h
        exact List.mem_cons_of_mem _ (ih h)

theorem mem_lookupA {a : Assignment} {v : Variable} {w : Word}
    (hnd : (a.map Prod.fst).Nodup) (h : (v, w) ∈ a) : lookupA a v = some w := by
  induction a with
  | nil => simp at h
  | cons p rest ih =>
      simp only [List.map_cons, List.nodup_cons] at hnd
      rcases List.mem_cons.mp h with h1 | h1
      · subst h1; simp [lookupA]
      · have hne : p.1 ≠ v := by
          intro he
          exact hnd.1 (he ▸ (List.mem_map.mpr ⟨(v, w), h1, rfl⟩))
        simp [lookupA, hne, ih hnd.2 h1]

theorem popA_insertA {a : Assignment} {var : Variable} (w : Word)
    (h : lookupA a var = none) : popA (insertA a var w) var = a := by
  have hall := (lookupA_none_iff a var).mp h
  induction a with
  | nil => simp [insertA, popA]
  | cons p rest ih =>
      have hp : p.1 ≠ var := hall p (List.mem_cons_self p rest)
      simp only [insertA, if_neg hp, popA, List.filter_cons]
      have : (!(p.1 == var)) = true := by simp [hp]
      rw [if_pos this]
      have hrest : lookupA rest var = none := by
        rw [lookupA_none_iff]
        intro q hq
        exact hall q (List.mem_cons_of_mem _ hq)
      have := ih hrest (fun q hq => hall q (List.mem_cons_of_mem _ hq))
      simpa [popA] using this

theorem lookupD_updateD_self (d : Domains) (x : Variable) (ws : List Word) :
    lookupD (updateD d x ws) x = some ws := by
  induction d with
  | nil => simp [updateD, lookupD]
  | cons p rest ih =>
      by_cases h : p.1 = x
      · simp [updateD, h, lookupD]
      · simp [updateD, h, lookupD, ih]

theorem lookupD_updateD_ne (d : Domains) (x v : Variable) (ws : List Word)
    (h : v ≠ x) : lookupD (updateD d x ws) v = lookupD d v := by
  induction d with
  | nil => simp [updateD, lookupD, Ne.symm h]
  | cons p rest ih =>
      by_cases hp : p.1 = x
      · subst hp
        simp [updateD, lookupD, Ne.symm h, fun he : p.1 = v => h he.symm]
      · simp [updateD, hp, lookupD, ih]

theorem domOf_updateD_self (d : Domains) (x : Variable) (ws : List Word) :
    domOf (updateD d x ws) x = ws := by
  simp [domOf, lookupD_updateD_self]

theorem domOf_updateD_ne (d : Domains) (x v : Variable) (ws : List Word)
    (h : v ≠ x) : domOf (updateD d x ws) v = domOf d v := by
  simp [domOf, lookupD_updateD_ne d x v ws h]

theorem keys_updateD_superset {d : Domains} {v : Variable}
    (x : Variable) (ws : List Word) (h : v ∈ d.map Prod.fst) :
    v ∈ (updateD d x ws).map Prod.fst := by
  induction d with
  | nil => simp at h
  | cons p rest ih =>
      by_cases hp : p.1 = x
      · simp only [updateD, if_pos hp]
        simp only [List.map_cons] at h ⊢
        rcases List.mem_cons.mp h with h1 | h1
        · exact List.mem_cons.mpr (Or.inl (hp ▸ h1))
        · exact List.mem_cons.mpr (Or.inr h1)
      · simp only [updateD, if_neg hp]
        simp only [List.map_cons] at h ⊢
        rcases List.mem_cons.mp h with h1 | h1
        · exact List.mem_cons.mpr (Or.inl h1)
        · exact List.mem_cons.mpr (Or.inr (ih h1))

theorem revise_domOf_subset (cw : Crossword) (d : Domains) (x y : Variable) :
    ∀ v w, w ∈ domOf (revise cw d x y).1 v → w ∈ domOf d v := by
  intro v w hw
  cases hov : cw.overlaps x y with
  | none => simpa only [revise, hov] using hw
  | some pr =>
      obtain ⟨i, j⟩ := pr
      simp only [revise, hov] at hw
      by_cases hv : v = x
      · subst hv
        rw [domOf_updateD_self] at hw
        exact (List.mem_filter.mp hw).1
      · rwa [domOf_updateD_ne _ _ _ _ hv] at hw

theorem revise_false_domOf (cw : Crossword) (d : Domains) (x y : Variable)
    (h : (revise cw d x y).2 = false) (v : Variable) :
    domOf (revise cw d x y).1 v = domOf d v := by
  cases hov : cw.overlaps x y with
  | none => simp only [revise, hov]
  | some pr =>
      obtain ⟨i, j⟩ := pr
      simp only [revise, hov] at h ⊢
      by_cases hv : v = x
      · subst hv
        rw [domOf_updateD_self]
        apply List.filter_eq_self.mpr
        intro w hw
        rw [List.any_eq_false] at h
        have := h w hw
        simpa using this
      · exact domOf_updateD_ne _ _ _ _ hv

theorem revise_arcOK (cw : Crossword) (d : Domains) (x y : Variable)
    (hne : y ≠ x) : arcOK cw (revise cw d x y).1 x y := by
  intro i j hov w hw
  cases hov' : cw.overlaps x y with
  | none => rw [hov'] at hov; cases hov
  | some pr =>
      obtain ⟨i0, j0⟩ := pr
      rw [hov'] at hov
      injection hov with hpr
      injection hpr with hi hj
      subst hi; subst hj
      simp only [revise, hov'] at hw ⊢
      rw [domOf_updateD_self] at hw
      have hpred := (List.mem_filter.mp hw).2
      rw [List.any_eq_true] at hpred
      obtain ⟨v, hv, hvp⟩ := hpred
      refine ⟨v, ?_, by simpa using hvp⟩
      rw [domOf_updateD_ne _ _ _ _ hne]
      exact hv

theorem revise_keys_superset (cw : Crossword) (d : Domains) (x y v : Variable)
    (h : v ∈ d.map Prod.fst) : v ∈ (revise cw d x y).1.map Prod.fst := by
  cases hov : cw.overlaps x y with
  | none => simpa only [revise, hov] using h
  | some pr =>
      obtain ⟨i, j⟩ := pr
      simp only [revise, hov]
      exact keys_updateD_superset x _ h

theorem lookupD_enforce (d : Domains) (v : Variable) :
    lookupD (enforce_node_consistency d) v
      = (lookupD d v).map (fun ws => ws.filter (fun w => w.length == v.length)) := by
  induction d with
  | nil => simp [enforce_node_consistency, lookupD]
  | cons p rest ih =>
      have hrw : enforce_node_consistency (p :: rest)
          = (p.1, p.2.filter (fun w => w.length == p.1.length))
            :: enforce_node_consistency rest := rfl
      rw [hrw]
      by_cases h : p.1 = v
      · subst h
        simp [lookupD]
      · simp [lookupD, h, ih]

theorem domOf_enforce (d : Domains) (v : Variable) :
    domOf (enforce_node_consistency d) v
      = (domOf d v).filter (fun w => w.length == v.length) := by
  simp only [domOf, lookupD_enforce]
  cases lookupD d v <;> simp

theorem ac3Loop_domOf_subset (cw : Crossword) :
    ∀ fuel d q d', ac3Loop cw fuel d q = some d' →
      ∀ v w, w ∈ domOf d' v → w ∈ domOf d v := by
  intro fuel
  induction fuel with
  | zero => intro d q d' h; simp [ac3Loop] at h
  | succ n ih =>
      intro d q d' h v w hw
      cases q with
      | nil =>
          simp only [ac3Loop] at h
          injection h with h
          subst h
          exact hw
      | cons pr rest =>
          obtain ⟨x, y⟩ := pr
          simp only [ac3Loop] at h
          split at h
          · exact revise_domOf_subset cw d x y v w (ih _ _ _ h v w hw)
          · exact revise_domOf_subset cw d x y v w (ih _ _ _ h v w hw)

theorem revise_domOf_ne (cw : Crossword) (d : Domains) (x y v : Variable)
    (h : v ≠ x) : domOf (revise cw d x y).1 v = domOf d v := by
  cases hov : cw.overlaps x y with
  | none => simp only [revise, hov]
  | some pr =>
      obtain ⟨i, j⟩ := pr
      simp only [revise, hov]
      exact domOf_updateD_ne _ _ _ _ h

theorem arcOK_of_pointwise (cw : Crossword) {d d2 : Domains} (x y : Variable)
    (hx : ∀ w ∈ domOf d2 x, w ∈ domOf d x)
    (hy : domOf d2 y = domOf d y)
    (h : arcOK cw d x y) : arcOK cw d2 x y := by
  intro i j hov w hw
  obtain ⟨v, hv, hvw⟩ := h i j hov w (hx w hw)
  exact ⟨v, hy ▸ hv, hvw⟩

/-- The AC-3 queue invariant: every arc between neighboring slots is
either still pending on the queue or already arc-consistent; when the
queue drains, all arcs are consistent. -/
theorem ac3Loop_arcOK (cw : Crossword) :
    ∀ fuel d q d',
      ac3Loop cw fuel d q = some d' →
      (∀ pr ∈ q, pr.1 ∈ cw.vars ∧ pr.2 ∈ cw.neighborsOf pr.1) →
      (∀ x ∈ cw.vars, ∀ y ∈ cw.neighborsOf x, (x, y) ∈ q ∨ arcOK cw d x y) →
      ∀ x ∈ cw.vars, ∀ y ∈ cw.neighborsOf x, arcOK cw d' x y := by
  intro fuel
  induction fuel with
  | zero => intro d q d' h; simp [ac3Loop] at h
  | succ n ih =>
      intro d q d' h hq hinv x hx y hy
      cases q with
      | nil =>
          simp only [ac3Loop] at h
          injection h with h
          subst h
          rcases hinv x hx y hy with hmem | hok
          · simp at hmem
          · exact hok
      | cons pr rest =>
          obtain ⟨p, q0⟩ := pr
          have hpq : p ∈ cw.vars ∧ q0 ∈ cw.neighborsOf p :=
            hq (p, q0) (List.mem_cons_self _ _)
          have hpv : p ∈ cw.vars := hpq.1
          have hq0n : q0 ∈ cw.neighborsOf p := hpq.2
          have hq0p : q0 ≠ p := by
            intro he
            exact cw.neighbors_irrefl p hpv (he ▸ hq0n)
          simp only [ac3Loop] at h
          split at h
          · -- a revision was made: the queue grows by ac3Enqueue
            refine ih _ _ _ h ?_ ?_ x hx y hy
            · intro pr2 hpr2
              rcases List.mem_append.mp hpr2 with h1 | h1
              · exact hq pr2 (List.mem_cons_of_mem _ h1)
              · simp only [ac3Enqueue, List.mem_map] at h1
                obtain ⟨z, hz, he⟩ := h1
                subst he
                exact ⟨cw.neighbors_mem p hpv z hz,
                  cw.neighbors_symm p hpv z (cw.neighbors_mem p hpv z hz) hz⟩
            · intro x2 hx2 y2 hy2
              by_cases hyp : y2 = p
              · subst hyp
                left
                apply List.mem_append.mpr
                right
                simp only [ac3Enqueue, List.mem_map]
                exact ⟨x2, cw.neighbors_symm x2 hx2 y2 hpv hy2, rfl⟩
              · rcases hinv x2 hx2 y2 hy2 with hmem | hok
                · rcases List.mem_cons.mp hmem with he | hmem2
                  · injection he with he1 he2
                    subst he1
                    subst he2
                    right
                    exact revise_arcOK cw d x2 y2 hq0p
                  · left
                    exact List.mem_append.mpr (Or.inl hmem2)
                · right
                  refine arcOK_of_pointwise cw x2 y2 ?_ ?_ hok
                  · exact fun w hw => revise_domOf_subset cw d p q0 x2 w hw
                  · exact revise_domOf_ne cw d p q0 y2 hyp
          · -- no revision: the domains are pointwise unchanged
            rename_i hr
            have hrf : (revise cw d p q0).2 = false := by
              revert hr
              cases (revise cw d p q0).2 <;> simp
            refine ih _ _ _ h
              (fun pr2 hpr2 => hq pr2 (List.mem_cons_of_mem _ hpr2)) ?_ x hx y hy
            intro x2 hx2 y2 hy2
            rcases hinv x2 hx2 y2 hy2 with hmem | hok
            · rcases List.mem_cons.mp hmem with he | hmem2
              · injection he with he1 he2
                subst he1
                subst he2
                right
                exact revise_arcOK cw d x2 y2 hq0p
              · left
                exact hmem2
            · right
              refine arcOK_of_pointwise cw x2 y2 ?_ ?_ hok
              · intro w hw
                rw [revise_false_domOf cw d p q0 hrf] at hw
                exact hw
              · exact revise_false_domOf cw d p q0 hrf y2

/-! ## Claim theorems: concrete evaluations -/

/-- C1.  The totality claim fails on the code: `cw1` has a complete,
consistent assignment (`sol1`) inside the original pre-pruning domains,
yet `solve` raises an uncaught `TypeError` (line 255 of generate.py
evaluates `self.consistent(None)` after the first descent dead-ends at
`vB1`) instead of returning an assignment. -/
theorem claim1_solve_crashes_on_satisfiable_input :
    (solve cw1 30 10).1 = BTOutcome.typeError ∧
    assignment_complete (initialDomains cw1) sol1 = true ∧
    consistent cw1 (initialDomains cw1) sol1 = true ∧
    sol1.all (fun p => p.2 ∈ cw1.words) = true := by decide

/-- C2.  On the unsatisfiable instance `cw2` (no two distinct pool words
agree at the crossing index, as the exhaustive check over the pool
shows), `backtrack`'s recursive call returns `None`, and the caller
feeds it straight into `self.consistent` — an uncaught `TypeError`, not
a `null` result. -/
theorem claim2_failure_result_raises_type_error :
    (solve cw2 10 5).1 = BTOutcome.typeError ∧
    (cw2.words.all (fun w1 => cw2.words.all (fun w2 =>
      !(consistent cw2 (initialDomains cw2) [(vA2, w1), (vB2, w2)]) &&
      !(consistent cw2 (initialDomains cw2) [(vB2, w2), (vA2, w1)])))) = true := by
  decide

/-- C6.  The degree tie-break is not by neighbor count: with `x6` and
`y6` both unassigned and tied on domain size, the code returns `x6`
although `y6` has strictly more neighbors, because line 231 compares
the neighbor sets with Python's strict-superset `>` and the sets are
incomparable. -/
theorem claim6_select_ignores_degree :
    select_unassigned_variable cw6 d6 a6 = some x6 ∧
    (domOf d6 x6).length = (domOf d6 y6).length ∧
    lookupA a6 x6 = none ∧ lookupA a6 y6 = none ∧
    (cw6.neighborsOf x6).length < (cw6.neighborsOf y6).length := by decide

/-- C5 counterexample.  After `revise(vA2, vB2)` prunes, the enqueued
arcs are not "the pairs (z, vA2) for neighbors z other than vB2": the
code re-enqueues `(vB2, vA2)` as well, as the one-step unfolding of the
queue loop shows. -/
theorem claim5_counterexample :
    ¬(ac3Enqueue cw2 vA2 vB2 =
        ((cw2.neighborsOf vA2).filter (fun z => !(z == vB2))).map
          (fun z => (z, vA2))) ∧
    (revise cw2 dC5 vA2 vB2).2 = true ∧
    vB2 ∈ cw2.neighborsOf vA2 ∧
    ac3Loop cw2 2 dC5 [(vA2, vB2)] =
      ac3Loop cw2 1 (revise cw2 dC5 vA2 vB2).1 [(vB2, vA2)] := by decide

/-- C5 amended.  After a pruning `revise(x, y)`, the loop re-enqueues
`(z, x)` for every neighbor `z` of `x` — including `z = y`, which the
code does not exclude. -/
theorem claim5_amended_enqueues_all_neighbors (cw : Crossword) (d : Domains)
    (x y : Variable) (rest : List (Variable × Variable)) (fuel : Nat)
    (h : (revise cw d x y).2 = true) :
    ac3Loop cw (fuel + 1) d ((x, y) :: rest) =
      ac3Loop cw fuel (revise cw d x y).1
        (rest ++ (cw.neighborsOf x).map (fun z => (z, x))) := by
  simp only [ac3Loop, ac3Enqueue, h, if_true]

/-- Witness for C5's amended theorem at the pruning step of `dC5`. -/
theorem claim5_amended_witness :
    (revise cw2 dC5 vA2 vB2).2 = true ∧
    ac3Loop cw2 2 dC5 [(vA2, vB2)] =
      ac3Loop cw2 1 (revise cw2 dC5 vA2 vB2).1
        ([] ++ (cw2.neighborsOf vA2).map (fun z => (z, vA2))) :=
  ⟨by decide,
   claim5_amended_enqueues_all_neighbors cw2 dC5 vA2 vB2 [] 1 (by decide)⟩

/-- C8.  Domains are only ever pruned: after `ac3` (with any initial
arc queue) and after `enforce_node_consistency`, every slot's domain is
a subset of what it was before the call. -/
theorem claim8_domains_only_pruned (cw : Crossword) (fuel : Nat)
    (d : Domains) (arcs : Option (List (Variable × Variable)))
    (d' : Domains) (b : Bool) (h : ac3 cw fuel d arcs = some (d', b)) :
    ∀ v ∈ cw.vars,
      (∀ w ∈ domOf d' v, w ∈ domOf d v) ∧
      (∀ w ∈ domOf (enforce_node_consistency d) v, w ∈ domOf d v) := by
  simp only [ac3] at h
  split at h
  · cases h
  · rename_i d'' heq
    injection h with h
    injection h with h1 _h2
    subst h1
    intro v _
    constructor
    · exact fun w hw => ac3Loop_domOf_subset cw fuel d _ d'' heq v w hw
    · intro w hw
      rw [domOf_enforce] at hw
      exact (List.mem_filter.mp hw).1

/-- Witness for C8 on the pruning run from `dC5`. -/
theorem claim8_witness :
    ac3 cw2 10 dC5 (some [(vA2, vB2), (vB2, vA2)])
      = some ([(vA2, [aaa]), (vB2, [aab])], true) ∧
    (∀ v ∈ cw2.vars,
      (∀ w ∈ domOf [(vA2, [aaa]), (vB2, [aab])] v, w ∈ domOf dC5 v) ∧
      (∀ w ∈ domOf (enforce_node_consistency dC5) v, w ∈ domOf dC5 v)) :=
  ⟨by decide,
   claim8_domains_only_pruned cw2 10 dC5 (some [(vA2, vB2), (vB2, vA2)])
     [(vA2, [aaa]), (vB2, [aab])] true (by decide)⟩

/-- C9.  `ac3` returns `false` exactly when, after the queue empties,
some domain-store entry is empty, and `true` otherwise. -/
theorem claim9_ac3_false_iff_empty_domain (cw : Crossword) (fuel : Nat)
    (d : Domains) (arcs : Option (List (Variable × Variable)))
    (d' : Domains) (b : Bool) (h : ac3 cw fuel d arcs = some (d', b)) :
    b = true ↔ ∀ p ∈ d', p.2 ≠ [] := by
  simp only [ac3] at h
  split at h
  · cases h
  · injection h with h
    injection h with h1 h2
    subst h1
    rw [← h2]
    simp [List.all_eq_true]

/-- Witness for C9 on `cw2`'s node-consistent domains. -/
theorem claim9_witness :
    ac3 cw2 10 d2 none = some (d2, true) ∧
    (true = true ↔ ∀ p ∈ d2, p.2 ≠ []) :=
  ⟨by decide, claim9_ac3_false_iff_empty_domain cw2 10 d2 none d2 true (by decide)⟩

/-! ## Backtracking lemmas -/

theorem suvGo_mem (cw : Crossword) (d : Domains) :
    ∀ rest mn mnval, suvGo cw d mn mnval rest ∈ mn :: rest := by
  intro rest
  induction rest with
  | nil => intro mn mnval; simp [suvGo]
  | cons option rest ih =>
      intro mn mnval
      have hsub : ∀ z, z ∈ mn :: rest → z ∈ mn :: option :: rest := by
        intro z hz
        rcases List.mem_cons.mp hz with h | h
        · exact h ▸ List.mem_cons_self _ _
        · exact List.mem_cons_of_mem _ (List.mem_cons_of_mem _ h)
      simp only [suvGo]
      split
      · split
        · exact List.mem_cons_of_mem _ (ih option _)
        · exact hsub _ (ih mn mnval)
      · split
        · exact List.mem_cons_of_mem _ (ih option _)
        · exact hsub _ (ih mn mnval)

/-- The selected variable is indeed unassigned. -/
theorem select_unassigned (cw : Crossword) (d : Domains) (a : Assignment)
    (var : Variable) (h : select_unassigned_variable cw d a = some var) :
    lookupA a var = none := by
  simp only [select_unassigned_variable] at h
  split at h
  · cases h
  · rename_i first rest heq
    injection h with h
    subst h
    have hmem : suvGo cw d first ((domOf d first).length) rest
        ∈ (d.map Prod.fst).filter (fun x => (lookupA a x).isNone) := by
      rw [heq]
      exact suvGo_mem cw d rest first ((domOf d first).length)
    have hfil := List.mem_filter.mp hmem
    simpa using hfil.2

/-- Any assignment returned through the value loop with outcome `found`
is complete and consistent, provided recursive `found` results are. -/
theorem btAttempt_found (cw : Crossword) (d : Domains)
    (rec : Assignment → BTOutcome × Assignment)
    (hrec : ∀ a2, consistent cw d a2 = true → (rec a2).1 = BTOutcome.found →
      assignment_complete d (rec a2).2 = true ∧ consistent cw d (rec a2).2 = true)
    (var : Variable) :
    ∀ vs a r, btAttempt cw d rec var a vs = (BTOutcome.found, r) →
      assignment_complete d r = true ∧ consistent cw d r = true := by
  intro vs
  induction vs with
  | nil => intro a r h; simp [btAttempt] at h
  | cons value rest ih =>
      intro a r h
      simp only [btAttempt] at h
      split at h
      · rename_i hcons
        split at h
        · rename_i a3 heq
          split at h
          · rename_i hc
            injection h with _h1 h2
            subst h2
            have hf := hrec (insertA a var value) hcons (by rw [heq])
            rw [heq] at hf
            exact ⟨hf.1, hc⟩
          · exact ih _ _ h
        · simp at h
        · simp at h
        · simp at h
      · exact ih _ _ h

/-- Any `found` result of `backtrack` on a consistent assignment is
complete and consistent. -/
theorem backtrack_found_sound (cw : Crossword) (d : Domains) :
    ∀ fuel a r, consistent cw d a = true →
      backtrack cw d fuel a = (BTOutcome.found, r) →
      assignment_complete d r = true ∧ consistent cw d r = true := by
  intro fuel
  induction fuel with
  | zero => intro a r _ h; simp [backtrack] at h
  | succ n ih =>
      intro a r hc h
      simp only [backtrack] at h
      split at h
      · rename_i hcomp
        injection h with _h1 h2
        subst h2
        exact ⟨hcomp, hc⟩
      · split at h
        · simp at h
        · rename_i var _heq
          refine btAttempt_found cw d (backtrack cw d n) ?_ var _ a r h
          intro a2 h2 hf
          have hp : backtrack cw d n a2 = (BTOutcome.found, (backtrack cw d n a2).2) := by
            rw [← hf]
          exact ih a2 _ h2 hp

/-- A `failure` (`None`) pass through the value loop leaves the
assignment dict exactly as it was at entry. -/
theorem btAttempt_failure (cw : Crossword) (d : Domains)
    (rec : Assignment → BTOutcome × Assignment)
    (hrec : ∀ a2, consistent cw d a2 = true → (rec a2).1 = BTOutcome.found →
      consistent cw d (rec a2).2 = true)
    (var : Variable) :
    ∀ vs a a', lookupA a var = none →
      btAttempt cw d rec var a vs = (BTOutcome.failure, a') → a' = a := by
  intro vs
  induction vs with
  | nil =>
      intro a a' _ h
      injection h with _h1 h2
      exact h2.symm
  | cons value rest ih =>
      intro a a' hv h
      simp only [btAttempt] at h
      split at h
      · rename_i hcons
        split at h
        · rename_i a3 heq
          split at h
          · simp at h
          · rename_i hc
            have hf := hrec (insertA a var value) hcons (by rw [heq])
            rw [heq] at hf
            exact absurd hf (by simpa using hc)
        · simp at h
        · simp at h
        · simp at h
      · rw [popA_insertA value hv] at h
        exact ih a a' hv h

theorem ac3Loop_keys_superset (cw : Crossword) :
    ∀ fuel d q d', ac3Loop cw fuel d q = some d' →
      ∀ v, v ∈ d.map Prod.fst → v ∈ d'.map Prod.fst := by
  intro fuel
  induction fuel with
  | zero => intro d q d' h; simp [ac3Loop] at h
  | succ n ih =>
      intro d q d' h v hv
      cases q with
      | nil =>
          simp only [ac3Loop] at h
          injection h with h
          subst h
          exact hv
      | cons pr rest =>
          obtain ⟨x, y⟩ := pr
          simp only [ac3Loop] at h
          split at h
          · exact ih _ _ _ h v (revise_keys_superset cw d x y v hv)
          · exact ih _ _ _ h v (revise_keys_superset cw d x y v hv)

theorem keys_enforce (d : Domains) :
    (enforce_node_consistency d).map Prod.fst = d.map Prod.fst := by
  induction d with
  | nil => rfl
  | cons p rest ih =>
      have hrw : enforce_node_consistency (p :: rest)
          = (p.1, p.2.filter (fun w => w.length == p.1.length))
            :: enforce_node_consistency rest := rfl
      rw [hrw, List.map_cons, List.map_cons, ih]

theorem keys_initialDomains (cw : Crossword) :
    (initialDomains cw).map Prod.fst = cw.vars := by
  simp [initialDomains, List.map_map, Function.comp_def]

theorem solveDomains_loop (cw : Crossword) (acFuel : Nat) (d2 : Domains)
    (h : solveDomains cw acFuel = some d2) :
    ac3Loop cw acFuel (enforce_node_consistency (initialDomains cw))
      (initialArcs cw (enforce_node_consistency (initialDomains cw))) = some d2 := by
  simp only [solveDomains, ac3] at h
  rcases hl : ac3Loop cw acFuel (enforce_node_consistency (initialDomains cw))
      (initialArcs cw (enforce_node_consistency (initialDomains cw))) with _ | d''
  · rw [hl] at h
    simp at h
  · rw [hl] at h
    simp at h
    rw [h]

/-- C4.  Arc-consistency soundness: when `ac3()` (default arcs, the
queue seeded with every neighbor arc of every domain key) terminates
with `true`, every word left in a slot's domain has a partner in each
neighbor's domain agreeing at the overlap indices. -/
theorem claim4_ac3_sound (cw : Crossword) (fuel : Nat) (d d' : Domains)
    (hk1 : ∀ v ∈ cw.vars, v ∈ d.map Prod.fst)
    (hk2 : ∀ v ∈ d.map Prod.fst, v ∈ cw.vars)
    (h : ac3 cw fuel d none = some (d', true)) :
    ∀ x ∈ cw.vars, ∀ y ∈ cw.neighborsOf x, ∀ i j,
      cw.overlaps x y = some (i, j) →
      ∀ w ∈ domOf d' x, ∃ v ∈ domOf d' y, charAt w i = charAt v j := by
  simp only [ac3] at h
  split at h
  · cases h
  · rename_i d'' heq
    injection h with h
    injection h with h1 _h2
    subst h1
    intro x hx y hy i j hov w hw
    refine ac3Loop_arcOK cw fuel d _ _ heq ?_ ?_ x hx y hy i j hov w hw
    · intro pr hpr
      simp only [initialArcs, List.mem_flatMap] at hpr
      obtain ⟨p, hp, hpr⟩ := hpr
      simp only [List.mem_map] at hpr
      obtain ⟨u, hu, he⟩ := hpr
      subst he
      exact ⟨hk2 p.1 (List.mem_map.mpr ⟨p, hp, rfl⟩), hu⟩
    · intro x2 hx2 y2 hy2
      left
      obtain ⟨p, hp, hpe⟩ := List.mem_map.mp (hk1 x2 hx2)
      simp only [initialArcs, List.mem_flatMap]
      refine ⟨p, hp, ?_⟩
      simp only [List.mem_map]
      exact ⟨y2, hpe ▸ hy2, by rw [hpe]⟩

/-- Witness for C4 on `cw2`, whose domains survive `ac3` untouched. -/
theorem claim4_witness :
    ac3 cw2 10 d2 none = some (d2, true) ∧
    (∀ x ∈ cw2.vars, ∀ y ∈ cw2.neighborsOf x, ∀ i j,
      cw2.overlaps x y = some (i, j) →
      ∀ w ∈ domOf d2 x, ∃ v ∈ domOf d2 y, charAt w i = charAt v j) :=
  ⟨by decide,
   claim4_ac3_sound cw2 10 d2 d2 (by decide) (by decide) (by decide)⟩

/-! ## The consistency check, characterized -/

/-- The `layers.all` test of `consistent`'s loop body holds exactly when
the entry satisfies its neighbor obligations, provided every neighbor is
a domain key (an unassigned neighbor is then skipped via `temp`, and an
assigned one is really checked). -/
theorem layers_all_iff (cw : Crossword) (d : Domains) (a : Assignment)
    (v : Variable) (w : Word)
    (hv : ∀ u ∈ cw.neighborsOf v, u ∈ d.map Prod.fst) :
    (((cw.neighborsOf v).filter (fun x =>
        !(((d.map Prod.fst).filter (fun z => (lookupA a z).isNone)).contains x))).all
      (fun layer =>
        match cw.overlaps v layer, lookupA a layer with
        | some (i, j), some wl => charAt w i == charAt wl j
        | _, _ => true)) = true ↔ entryOK cw a v w := by
  rw [List.all_eq_true]
  constructor
  · intro hall u hu wu hlook i j hov
    have hmem : u ∈ (cw.neighborsOf v).filter (fun x =>
        !(((d.map Prod.fst).filter (fun z => (lookupA a z).isNone)).contains x)) := by
      rw [List.mem_filter]
      refine ⟨hu, ?_⟩
      simp [List.mem_filter, hlook]
    have hx := hall u hmem
    rw [hov, hlook] at hx
    exact eq_of_beq hx
  · intro hok layer hmem
    have hl := List.mem_filter.mp hmem
    cases hlook : lookupA a layer with
    | none =>
        exfalso
        have hin : layer ∈ (d.map Prod.fst).filter (fun z => (lookupA a z).isNone) := by
          rw [List.mem_filter]
          exact ⟨hv layer hl.1, by simp [hlook]⟩
        have htrue : ((d.map Prod.fst).filter
            (fun z => (lookupA a z).isNone)).contains layer = true := by
          simp [hin]
        have hcon := hl.2
        rw [htrue] at hcon
        simp at hcon
    | some wl =>
        cases hov : cw.overlaps v layer with
        | none => rfl
        | some pr =>
            obtain ⟨i, j⟩ := pr
            show (charAt w i == charAt wl j) = true
            exact beq_iff_eq.mpr (hok layer hl.1 wl hlook i j hov)

/-- Full characterization of the `consistent` loop: it accepts exactly
when every remaining entry has the right length, a value unseen in
`done` and distinct from the other remaining values, and satisfies its
neighbor obligations. -/
theorem consistentAux_iff (cw : Crossword) (d : Domains) (a : Assignment) :
    ∀ l done,
      (∀ p ∈ l, ∀ u ∈ cw.neighborsOf p.1, u ∈ d.map Prod.fst) →
      (consistentAux cw d a done l = true ↔
        ((∀ p ∈ l, p.1.length = p.2.length) ∧
         (∀ p ∈ l, p.2 ∉ done) ∧
         (l.map Prod.snd).Nodup ∧
         (∀ p ∈ l, entryOK cw a p.1 p.2))) := by
  intro l
  induction l with
  | nil => intro done _; simp [consistentAux]
  | cons p rest ih =>
      intro done hn
      obtain ⟨v, w⟩ := p
      have hv : ∀ u ∈ cw.neighborsOf v, u ∈ d.map Prod.fst :=
        hn (v, w) (List.mem_cons_self _ _)
      have hnrest : ∀ p ∈ rest, ∀ u ∈ cw.neighborsOf p.1, u ∈ d.map Prod.fst :=
        fun p hp => hn p (List.mem_cons_of_mem _ hp)
      simp only [consistentAux]
      by_cases hlen : v.length = w.length
      · rw [if_neg (by simp [hlen])]
        by_cases hdone : w ∈ done
        · rw [if_pos (by simp [hdone])]
          constructor
          · intro h
            simp at h
          · rintro ⟨-, h2, -, -⟩
            exact absurd hdone (h2 (v, w) (List.mem_cons_self _ _))
        · rw [if_neg (by simp [hdone])]
          by_cases hok : entryOK cw a v w
          · rw [if_pos ((layers_all_iff cw d a v w hv).mpr hok)]
            rw [ih (w :: done) hnrest]
            constructor
            · rintro ⟨h1, h2, h3, h4⟩
              refine ⟨?_, ?_, ?_, ?_⟩
              · intro p hp
                rcases List.mem_cons.mp hp with he | hm
                · rw [he]; exact hlen
                · exact h1 p hm
              · intro p hp
                rcases List.mem_cons.mp hp with he | hm
                · rw [he]; exact hdone
                · exact fun hmem => h2 p hm (List.mem_cons_of_mem _ hmem)
              · rw [List.map_cons, List.nodup_cons]
                refine ⟨?_, h3⟩
                intro hwmem
                obtain ⟨p, hp, hpe⟩ := List.mem_map.mp hwmem
                refine h2 p hp ?_
                rw [hpe]
                exact List.mem_cons_self w done
              · intro p hp
                rcases List.mem_cons.mp hp with he | hm
                · rw [he]; exact hok
                · exact h4 p hm
            · rintro ⟨h1, h2, h3, h4⟩
              refine ⟨?_, ?_, ?_, ?_⟩
              · exact fun p hp => h1 p (List.mem_cons_of_mem _ hp)
              · intro p hp hmem
                rcases List.mem_cons.mp hmem with he | hm
                · rw [List.map_cons, List.nodup_cons] at h3
                  exact h3.1 (List.mem_map.mpr ⟨p, hp, he⟩)
                · exact h2 p (List.mem_cons_of_mem _ hp) hm
              · rw [List.map_cons, List.nodup_cons] at h3
                exact h3.2
              · exact fun p hp => h4 p (List.mem_cons_of_mem _ hp)
          · have hall := (Bool.eq_false_or_eq_true
              (((cw.neighborsOf v).filter (fun x =>
                  !(((d.map Prod.fst).filter
                    (fun z => (lookupA a z).isNone)).contains x))).all
                (fun layer =>
                  match cw.overlaps v layer, lookupA a layer with
                  | some (i, j), some wl => charAt w i == charAt wl j
                  | _, _ => true)))
            rcases hall with hb | hb
            · exact absurd ((layers_all_iff cw d a v w hv).mp hb) hok
            · rw [if_neg (ne_true_of_eq_false hb)]
              constructor
              · intro h
                simp at h
              · rintro ⟨-, -, -, h4⟩
                exact absurd (h4 (v, w) (List.mem_cons_self _ _)) hok
      · rw [if_pos (by simp [hlen])]
        constructor
        · intro h
          simp at h
        · rintro ⟨h1, -, -, -⟩
          exact absurd (h1 (v, w) (List.mem_cons_self _ _)) hlen

/-- C7.  `consistent` returns `true` exactly when every assigned word
has its slot's length, no two assigned slots share a word, and every
pair of assigned neighboring slots agrees at its overlap indices
(unassigned neighbors are skipped); in particular it returns `false`
on any duplicate, any overlap disagreement, and any length mismatch.
The hypotheses say the assignment is a genuine dict (distinct keys)
whose entries' neighbors are domain-store keys, as holds throughout
`solve`. -/
theorem claim7_consistent_iff (cw : Crossword) (d : Domains) (a : Assignment)
    (hnbrs : ∀ p ∈ a, ∀ u ∈ cw.neighborsOf p.1, u ∈ d.map Prod.fst)
    (hnodup : (a.map Prod.fst).Nodup) :
    consistent cw d a = true ↔
      ((∀ p ∈ a, p.2.length = p.1.length) ∧
       (a.map Prod.snd).Nodup ∧
       (∀ p ∈ a, ∀ q ∈ a, q.1 ∈ cw.neighborsOf p.1 →
         ∀ i j, cw.overlaps p.1 q.1 = some (i, j) →
           charAt p.2 i = charAt q.2 j)) := by
  have hc : consistent cw d a = consistentAux cw d a [] a := rfl
  rw [hc, consistentAux_iff cw d a a [] hnbrs]
  constructor
  · rintro ⟨h1, -, h3, h4⟩
    refine ⟨fun p hp => (h1 p hp).symm, h3, ?_⟩
    intro p hp q hq hnq i j hov
    exact h4 p hp q.1 hnq q.2 (mem_lookupA hnodup hq) i j hov
  · rintro ⟨h1, h2, h3⟩
    refine ⟨fun p hp => (h1 p hp).symm, fun p _ => List.not_mem_nil p.2, h2, ?_⟩
    intro p hp u hu wu hlook i j hov
    exact h3 p hp (u, wu) (lookupA_mem hlook) hu i j hov

/-- Witness for C7 on a two-entry assignment over `cw2`. -/
theorem claim7_witness :
    ((∀ p ∈ ([(vA2, aaa), (vB2, aab)] : Assignment),
        ∀ u ∈ cw2.neighborsOf p.1, u ∈ d2.map Prod.fst) ∧
     ((([(vA2, aaa), (vB2, aab)] : Assignment).map Prod.fst).Nodup)) ∧
    (consistent cw2 d2 [(vA2, aaa), (vB2, aab)] = true ↔
      ((∀ p ∈ ([(vA2, aaa), (vB2, aab)] : Assignment), p.2.length = p.1.length) ∧
       (([(vA2, aaa), (vB2, aab)] : Assignment).map Prod.snd).Nodup ∧
       (∀ p ∈ ([(vA2, aaa), (vB2, aab)] : Assignment),
         ∀ q ∈ ([(vA2, aaa), (vB2, aab)] : Assignment),
          q.1 ∈ cw2.neighborsOf p.1 →
          ∀ i j, cw2.overlaps p.1 q.1 = some (i, j) →
            charAt p.2 i = charAt q.2 j))) :=
  ⟨⟨by decide, by decide⟩,
   claim7_consistent_iff cw2 d2 [(vA2, aaa), (vB2, aab)] (by decide) (by decide)⟩

/-- C3.  Backtracking soundness: any `found` result of `solve` assigns a
word to every slot of the crossword and passes `consistent` under the
domain store `solve` left behind. -/
theorem claim3_solve_sound (cw : Crossword) (acFuel btFuel : Nat)
    (a : Assignment) (h : solve cw acFuel btFuel = (BTOutcome.found, a)) :
    (∀ v ∈ cw.vars, (lookupA a v).isSome = true) ∧
    (∀ d2, solveDomains cw acFuel = some d2 → consistent cw d2 a = true) := by
  simp only [solve] at h
  split at h
  · simp at h
  · rename_i d2 heq
    have hcons0 : consistent cw d2 [] = true := rfl
    have hsound := backtrack_found_sound cw d2 btFuel [] a hcons0 h
    constructor
    · intro v hv
      have hv1 : v ∈ (enforce_node_consistency (initialDomains cw)).map Prod.fst := by
        rw [keys_enforce, keys_initialDomains]
        exact hv
      have hv2 : v ∈ d2.map Prod.fst :=
        ac3Loop_keys_superset cw acFuel _ _ d2
          (solveDomains_loop cw acFuel d2 heq) v hv1
      obtain ⟨p, hp, hpe⟩ := List.mem_map.mp hv2
      have hcomp := hsound.1
      simp only [assignment_complete, List.all_eq_true] at hcomp
      rw [← hpe]
      exact hcomp p hp
    · intro d2' heq'
      rw [heq] at heq'
      injection heq' with heq'
      subst heq'
      exact hsound.2

/-- Witness for C3 on the isolated-slot instance `cwS`. -/
theorem claim3_witness :
    solve cwS 5 5 = (BTOutcome.found, [(vS, word4)]) ∧
    ((∀ v ∈ cwS.vars, (lookupA [(vS, word4)] v).isSome = true) ∧
     (∀ d2, solveDomains cwS 5 = some d2 →
        consistent cwS d2 [(vS, word4)] = true)) :=
  ⟨by decide, claim3_solve_sound cwS 5 5 [(vS, word4)] (by decide)⟩

/-- C10.  Whenever `backtrack` returns the failure value (`None`), the
assignment dict is exactly as it was at entry: every value the loop
tried was popped again.  (A `found` result that later fails the
caller's consistency re-check is impossible, and a recursive `None`
raises instead of returning, so only the pop-on-inconsistency path can
end in `failure`.) -/
theorem claim10_backtrack_failure_restores (cw : Crossword) (d : Domains) :
    ∀ fuel a a', backtrack cw d fuel a = (BTOutcome.failure, a') → a' = a := by
  intro fuel
  induction fuel with
  | zero => intro a a' h; simp [backtrack] at h
  | succ n ih =>
      intro a a' h
      simp only [backtrack] at h
      split at h
      · simp at h
      · split at h
        · simp at h
        · rename_i var heq
          refine btAttempt_failure cw d (backtrack cw d n) ?_ var _ a a'
            (select_unassigned cw d a var heq) h
          intro a2 h2 hf
          have hp : backtrack cw d n a2
              = (BTOutcome.found, (backtrack cw d n a2).2) := by
            rw [← hf]
          exact (backtrack_found_sound cw d n a2 _ h2 hp).2

/-- Witness for C10: the dead-end call on `cw2` with `vA2` tentatively
assigned fails and hands back the untouched assignment. -/
theorem claim10_witness :
    backtrack cw2 d2 3 [(vA2, aaa)] = (BTOutcome.failure, [(vA2, aaa)]) ∧
    ([(vA2, aaa)] : Assignment) = [(vA2, aaa)] :=
  ⟨by decide,
   claim10_backtrack_failure_restores cw2 d2 3 [(vA2, aaa)] [(vA2, aaa)]
     (by decide)⟩

end CrosswordGen
